import Mathlib

/-!
Shallow embedding of the refinement pipeline in `src/automation-engine.ts`
(`deduceGoal`, `traceBackward`, `pruneNoise`, `processRecording`) and of the
`RecordedAction` shape declared in `src/src/App.tsx`, followed by theorems
settling the specification claims about them.

Modelling conventions:
- `RecordedAction.type` is a `String` (the TypeScript union `"click" |
  "input" | "toggle"` is a string at runtime, and the spec's error-handling
  section reasons about unrecognized kinds, so the embedding keeps the full
  string type).
- The optional `value` field (`string | boolean | absent`) is the sum type
  `Value`; JavaScript `===` between such a value and a possibly-missing
  string lookup is `jsEq` (`undefined === undefined` is `true`).
- `timestamp` is `Int` (integer millisecond timestamps).
- A JavaScript `Map`/plain-object with string keys is an insertion-ordered
  association list: `mapSet` updates an existing key in place and appends a
  fresh key; `mapGet` is lookup. A JavaScript `Set` of strings is a
  duplicate-free insertion-ordered list built by `setAdd`.
- `Date.now()` is an explicit parameter `now` threaded into `deduceGoal`
  (and hence `processRecording`), making the wall-clock dependence visible.
- `Array.prototype.sort` with comparator `(a, b) => a.timestamp - b.timestamp`
  is a stable sort by non-decreasing timestamp; a stable sort over a total
  preorder is uniquely determined, so `List.insertionSort` with
  `a.timestamp ≤ b.timestamp` (which keeps ties in input order) embeds it.
-/

/-- The runtime type of the optional `value` field of a `RecordedAction`:
a string, a boolean, or absent (`undefined`). -/
inductive Value where
  | str (s : String)
  | bool (b : Bool)
  | undef
  deriving DecidableEq

/-- JS `jsTrim String.prototype`: strip leading and trailing whitespace.
Modelled by structural recursion on the character list so that concrete
goals evaluate by kernel reduction (Lean's own `jsTrim String` is defined by
byte-position recursion that the kernel cannot unfold). -/
def jsTrim (s : String) : String :=
  ⟨((s.data.dropWhile Char.isWhitespace).reverse.dropWhile
      Char.isWhitespace).reverse⟩

/-- JS `String.prototype.startsWith`: prefix test on the character list. -/
def jsStartsWith (s p : String) : Bool :=
  p.data.isPrefixOf s.data

/-- `RecordedAction` from `src/src/App.tsx`: one captured user interaction. -/
structure RecordedAction where
  type : String
  target : String
  value : Value
  timestamp : Int
  deriving DecidableEq

/-- `FinalState` from `src/automation-engine.ts`: the deduced Terminal State. -/
structure FinalState where
  completedTasks : List String
  formValues : List (String × String)
  timestamp : Int
  deriving DecidableEq

/-- Lookup in an insertion-ordered string-keyed map (JS `Map.get` /
object property read); `none` models `undefined`. -/
def mapGet {α : Type} (m : List (String × α)) (k : String) : Option α :=
  match m with
  | [] => none
  | (k', v) :: rest => if k' = k then some v else mapGet rest k

/-- Update in an insertion-ordered string-keyed map (JS `Map.set` / object
property write): an existing key keeps its position, a fresh key is appended. -/
def mapSet {α : Type} (m : List (String × α)) (k : String) (v : α) :
    List (String × α) :=
  match m with
  | [] => [(k, v)]
  | (k', v') :: rest => if k' = k then (k, v) :: rest else (k', v') :: mapSet rest k v

/-- JS `Set.add` for strings: append if not already present. -/
def setAdd (s : List String) (x : String) : List String :=
  if s.contains x then s else s ++ [x]

/-- JavaScript `===` between a `RecordedAction` value and the result of a
possibly-missing string lookup: strings compare by content,
`undefined === undefined` is `true`, and any mixed comparison is `false`. -/
def jsEq (v : Value) (o : Option String) : Bool :=
  match v, o with
  | Value.str s, some t => s == t
  | Value.undef, none => true
  | _, _ => false

/-- One step of the `targetStates` reduction in `deduceGoal`
(`src/automation-engine.ts` lines 26–36): keep the entry for
`action.target` unless the incoming action is strictly newer. -/
def dgStep (m : List (String × Value × Int)) (a : RecordedAction) :
    List (String × Value × Int) :=
  match mapGet m a.target with
  | none => mapSet m a.target (a.value, a.timestamp)
  | some e => if a.timestamp > e.2 then mapSet m a.target (a.value, a.timestamp) else m

/-- The `targetStates` map of `deduceGoal`: per-target last state
`(value, timestamp)`, built by a single pass over the actions. -/
def targetStates (actions : List RecordedAction) : List (String × Value × Int) :=
  actions.foldl dgStep []

/-- The classification loop body of `deduceGoal`
(`src/automation-engine.ts` lines 39–45): a `task-`-prefixed target whose
final value is `true` joins `completedTasks`; otherwise a final value that
is a string and non-empty after trimming is written (untrimmed) into
`formValues`; anything else contributes nothing. -/
def classify (fs : FinalState) (e : String × Value × Int) : FinalState :=
  if jsStartsWith e.1 "task-" && e.2.1 == Value.bool true then
    { fs with completedTasks := fs.completedTasks ++ [e.1] }
  else
    match e.2.1 with
    | Value.str s =>
      if jsTrim s != "" then { fs with formValues := mapSet fs.formValues e.1 s } else fs
    | _ => fs

/-- `deduceGoal` (`src/automation-engine.ts` lines 15–48). `now` is the
value `Date.now()` returns at this invocation. -/
def deduceGoal (now : Int) (actions : List RecordedAction) : FinalState :=
  (targetStates actions).foldl classify
    { completedTasks := [], formValues := [], timestamp := now }

/-- The `necessaryTargets` set of `traceBackward`
(`src/automation-engine.ts` lines 61–65): completed tasks plus form-value keys. -/
def necessaryTargets (goal : FinalState) : List String :=
  (goal.formValues.map Prod.fst).foldl setAdd (goal.completedTasks.foldl setAdd [])

/-- The `shouldKeep` test of `traceBackward`
(`src/automation-engine.ts` lines 76–78): a toggle matches when its target
is in `completedTasks` (its own value is never inspected); an input matches
when its value `===` the `formValues` entry for its target. -/
def shouldKeep (a : RecordedAction) (goal : FinalState) : Bool :=
  (a.type == "toggle" && goal.completedTasks.contains a.target) ||
  (a.type == "input" && jsEq a.value (mapGet goal.formValues a.target))

/-- One step of the `targetToLastAction` loop of `traceBackward`
(`src/automation-engine.ts` lines 70–85). -/
def keepStep (goal : FinalState) (necessary : List String)
    (m : List (String × RecordedAction)) (a : RecordedAction) :
    List (String × RecordedAction) :=
  if necessary.contains a.target then
    match mapGet m a.target with
    | none => if shouldKeep a goal then mapSet m a.target a else m
    | some existing =>
      if a.timestamp > existing.timestamp then
        if shouldKeep a goal then mapSet m a.target a else m
      else m
  else m

/-- Non-decreasing timestamp order, the comparator
`(a, b) => a.timestamp - b.timestamp` used by both sorts. -/
def tsLe (a b : RecordedAction) : Prop := a.timestamp ≤ b.timestamp

instance : DecidableRel tsLe := fun a b => Int.decLe a.timestamp b.timestamp

instance : IsTotal RecordedAction tsLe := ⟨fun a b => Int.le_total a.timestamp b.timestamp⟩

instance : IsTrans RecordedAction tsLe := ⟨fun _ _ _ h₁ h₂ => le_trans h₁ h₂⟩

/-- `traceBackward` (`src/automation-engine.ts` lines 56–93). -/
def traceBackward (actions : List RecordedAction) (goal : FinalState) :
    List RecordedAction :=
  let necessary := necessaryTargets goal
  let targetToLastAction := actions.foldl (keepStep goal necessary) []
  List.insertionSort tsLe (targetToLastAction.map Prod.snd)

/-- The identity key `` `${action.timestamp}-${action.target}` `` used by
`pruneNoise` (`src/automation-engine.ts` line 107). -/
def actionKey (a : RecordedAction) : String :=
  toString a.timestamp ++ "-" ++ a.target

/-- One step of the `uniqueTargets` dedup loop of `pruneNoise`
(`src/automation-engine.ts` lines 118–125). -/
def dedupStep (m : List (String × RecordedAction)) (a : RecordedAction) :
    List (String × RecordedAction) :=
  match mapGet m a.target with
  | none => mapSet m a.target a
  | some existing =>
    if a.timestamp > existing.timestamp then mapSet m a.target a else m

/-- `pruneNoise` (`src/automation-engine.ts` lines 101–131). -/
def pruneNoise (rawLog : List RecordedAction) (keepList : List RecordedAction) :
    List RecordedAction :=
  let keepSet := keepList.foldl (fun s a => setAdd s (actionKey a)) []
  let refinedScript := rawLog.filter (fun a => keepSet.contains (actionKey a))
  let uniqueTargets := refinedScript.foldl dedupStep []
  List.insertionSort tsLe (uniqueTargets.map Prod.snd)

/-- `processRecording` (`src/automation-engine.ts` lines 137–150). `now` is
the wall-clock reading passed through to `deduceGoal`. -/
def processRecording (now : Int) (rawLog : List RecordedAction) :
    List RecordedAction :=
  if rawLog.length = 0 then []
  else
    let goal := deduceGoal now rawLog
    let keepList := traceBackward rawLog goal
    pruneNoise rawLog keepList

/-- A record that reproduces, on its own, the goal contribution it induces:
a `true` state-toggle on a `task-`-prefixed target, or a text input whose
string is non-empty after trimming. These are exactly the records a second
refinement pass keeps. -/
def selfConsistent (a : RecordedAction) : Bool :=
  (a.type == "toggle" && jsStartsWith a.target "task-" && a.value == Value.bool true) ||
  (a.type == "input" && (match a.value with
    | Value.str s => jsTrim s != ""
    | _ => false))

/-- The per-target restriction of the `targetStates` reduction: the running
`(value, timestamp)` state produced by folding the "strictly newer wins"
rule of `dgStep` over the actions of a single target. -/
def bestAux (acc : Option (Value × Int)) (F : List RecordedAction) : Option (Value × Int) :=
  match F with
  | [] => acc
  | a :: rest =>
    match acc with
    | none => bestAux (some (a.value, a.timestamp)) rest
    | some e =>
      if a.timestamp > e.2 then bestAux (some (a.value, a.timestamp)) rest
      else bestAux (some e) rest

/-! ### Association-map and set lemmas -/

theorem mapGet_mapSet_self {α : Type} (m : List (String × α)) (k : String) (v : α) :
    mapGet (mapSet m k v) k = some v := by
  induction m with
  | nil => simp [mapSet, mapGet]
  | cons e rest ih =>
    obtain ⟨k', v'⟩ := e
    by_cases h : k' = k
    · simp [mapSet, mapGet, h]
    · simp [mapSet, mapGet, h, ih]

theorem mapGet_mapSet_ne {α : Type} (m : List (String × α)) (k t : String) (v : α)
    (h : k ≠ t) : mapGet (mapSet m k v) t = mapGet m t := by
  induction m with
  | nil => simp [mapSet, mapGet, h]
  | cons e rest ih =>
    obtain ⟨k', v'⟩ := e
    by_cases hk : k' = k
    · subst hk; simp [mapSet, mapGet, h]
    · simp [mapSet, mapGet, hk, ih]

theorem mapSet_absent {α : Type} (m : List (String × α)) (k : String) (v : α)
    (h : mapGet m k = none) : mapSet m k v = m ++ [(k, v)] := by
  induction m with
  | nil => simp [mapSet]
  | cons e rest ih =>
    obtain ⟨k', v'⟩ := e
    by_cases hk : k' = k
    · simp [mapGet, hk] at h
    · simp only [mapGet, if_neg hk] at h
      simp [mapSet, hk, ih h]

theorem mapGet_append_left {α : Type} (m₁ m₂ : List (String × α)) (k : String)
    (h : mapGet m₁ k = none) : mapGet (m₁ ++ m₂) k = mapGet m₂ k := by
  induction m₁ with
  | nil => simp
  | cons e rest ih =>
    obtain ⟨k', v'⟩ := e
    by_cases hk : k' = k
    · simp [mapGet, hk] at h
    · simp only [mapGet, if_neg hk] at h
      simpa [mapGet, hk] using ih h

theorem mapGet_eq_none_iff {α : Type} (m : List (String × α)) (k : String) :
    mapGet m k = none ↔ k ∉ m.map Prod.fst := by
  induction m with
  | nil => simp [mapGet]
  | cons e rest ih =>
    obtain ⟨k', v'⟩ := e
    by_cases hk : k' = k
    · simp [mapGet, hk]
    · simp [mapGet, hk, ih, Ne.symm hk]

theorem mapKeys_mapSet {α : Type} (m : List (String × α)) (k : String) (v : α) :
    (mapSet m k v).map Prod.fst =
      if k ∈ m.map Prod.fst then m.map Prod.fst else m.map Prod.fst ++ [k] := by
  induction m with
  | nil => simp [mapSet]
  | cons e rest ih =>
    obtain ⟨k', v'⟩ := e
    by_cases hk : k' = k
    · simp [mapSet, hk]
    · simp only [mapSet, if_neg hk, List.map_cons, ih]
      by_cases hm : k ∈ rest.map Prod.fst <;> simp [hm, Ne.symm hk]

theorem nodup_mapKeys_mapSet {α : Type} (m : List (String × α)) (k : String) (v : α)
    (h : (m.map Prod.fst).Nodup) : ((mapSet m k v).map Prod.fst).Nodup := by
  rw [mapKeys_mapSet]
  split
  · exact h
  · next hk => simp [List.nodup_append, h, hk]

theorem mem_of_mem_mapSet {α : Type} (m : List (String × α)) (k : String) (v : α)
    (e : String × α) (h : e ∈ mapSet m k v) : e ∈ m ∨ e = (k, v) := by
  induction m with
  | nil => simpa [mapSet] using h
  | cons e' rest ih =>
    obtain ⟨k', v'⟩ := e'
    by_cases hk : k' = k
    · simp only [mapSet, if_pos hk] at h
      rcases List.mem_cons.mp h with h | h
      · exact Or.inr h
      · exact Or.inl (List.mem_cons_of_mem _ h)
    · simp only [mapSet, if_neg hk] at h
      rcases List.mem_cons.mp h with h | h
      · exact Or.inl (h ▸ List.mem_cons_self _ _)
      · rcases ih h with h | h
        · exact Or.inl (List.mem_cons_of_mem _ h)
        · exact Or.inr h

theorem mem_setAdd (s : List String) (x t : String) : t ∈ setAdd s x ↔ t ∈ s ∨ t = x := by
  unfold setAdd
  split
  · next h =>
    have hx : x ∈ s := List.mem_of_elem_eq_true h
    constructor
    · exact Or.inl
    · rintro (h' | rfl)
      · exact h'
      · exact hx
  · simp

theorem mem_setAddFold (xs : List String) (s₀ : List String) (t : String) :
    t ∈ xs.foldl setAdd s₀ ↔ t ∈ s₀ ∨ t ∈ xs := by
  induction xs generalizing s₀ with
  | nil => simp
  | cons x rest ih => simp [ih, mem_setAdd, or_assoc, List.mem_cons]

/-! ### `classify` field equations and wall-clock independence -/

theorem classify_ct (fs : FinalState) (e : String × Value × Int) :
    (classify fs e).completedTasks =
      if jsStartsWith e.1 "task-" && e.2.1 == Value.bool true then
        fs.completedTasks ++ [e.1]
      else fs.completedTasks := by
  rcases e with ⟨t, v, ts⟩
  simp only [classify]
  by_cases h : (jsStartsWith t "task-" && (v == Value.bool true)) = true
  · simp only [if_pos h]
  · simp only [if_neg h]
    cases v with
    | str s =>
      dsimp only
      split <;> rfl
    | bool b => rfl
    | undef => rfl

theorem classify_fv (fs : FinalState) (e : String × Value × Int) :
    (classify fs e).formValues =
      if jsStartsWith e.1 "task-" && e.2.1 == Value.bool true then fs.formValues
      else
        match e.2.1 with
        | Value.str s =>
          if jsTrim s != "" then mapSet fs.formValues e.1 s else fs.formValues
        | _ => fs.formValues := by
  rcases e with ⟨t, v, ts⟩
  simp only [classify]
  by_cases h : (jsStartsWith t "task-" && (v == Value.bool true)) = true
  · simp only [if_pos h]
  · simp only [if_neg h]
    cases v with
    | str s =>
      dsimp only
      split <;> rfl
    | bool b => rfl
    | undef => rfl

theorem foldl_classify_fields (E : List (String × Value × Int)) :
    ∀ fs₁ fs₂ : FinalState, fs₁.completedTasks = fs₂.completedTasks →
      fs₁.formValues = fs₂.formValues →
      (E.foldl classify fs₁).completedTasks = (E.foldl classify fs₂).completedTasks ∧
      (E.foldl classify fs₁).formValues = (E.foldl classify fs₂).formValues := by
  induction E with
  | nil => exact fun _ _ h₁ h₂ => ⟨h₁, h₂⟩
  | cons e rest ih =>
    intro fs₁ fs₂ h₁ h₂
    simp only [List.foldl_cons]
    apply ih
    · rw [classify_ct, classify_ct, h₁]
    · rw [classify_fv, classify_fv, h₂]

theorem deduceGoal_fields (n₁ n₂ : Int) (L : List RecordedAction) :
    (deduceGoal n₁ L).completedTasks = (deduceGoal n₂ L).completedTasks ∧
    (deduceGoal n₁ L).formValues = (deduceGoal n₂ L).formValues :=
  foldl_classify_fields _ _ _ rfl rfl

theorem traceBackward_congr (L : List RecordedAction) (g₁ g₂ : FinalState)
    (h₁ : g₁.completedTasks = g₂.completedTasks)
    (h₂ : g₁.formValues = g₂.formValues) :
    traceBackward L g₁ = traceBackward L g₂ := by
  have hsk : ∀ a, shouldKeep a g₁ = shouldKeep a g₂ := by
    intro a; simp [shouldKeep, h₁, h₂]
  have hks : keepStep g₁ = keepStep g₂ := by
    funext N m a
    simp only [keepStep, hsk]
  simp [traceBackward, necessaryTargets, h₁, h₂, hks]

/-! ### Per-target decomposition of the `targetStates` reduction -/

theorem mapGet_dgStep_ne (m : List (String × Value × Int)) (a : RecordedAction)
    (t : String) (h : a.target ≠ t) : mapGet (dgStep m a) t = mapGet m t := by
  unfold dgStep
  split
  · exact mapGet_mapSet_ne _ _ _ _ h
  · split
    · exact mapGet_mapSet_ne _ _ _ _ h
    · rfl

theorem mapGet_foldlDg (L : List RecordedAction) :
    ∀ (m : List (String × Value × Int)) (t : String),
    mapGet (L.foldl dgStep m) t =
      bestAux (mapGet m t) (L.filter (fun a => a.target == t)) := by
  induction L with
  | nil => intro m t; rfl
  | cons a rest ih =>
    intro m t
    simp only [List.foldl_cons, List.filter_cons]
    by_cases h : a.target = t
    · have hb : (a.target == t) = true := by simp [h]
      rw [if_pos hb, ih]
      cases hm : mapGet m t with
      | none =>
        have : mapGet (dgStep m a) t = some (a.value, a.timestamp) := by
          unfold dgStep
          rw [h, hm]
          exact mapGet_mapSet_self _ _ _
        rw [this, bestAux]
      | some e =>
        by_cases hgt : a.timestamp > e.2
        · have : mapGet (dgStep m a) t = some (a.value, a.timestamp) := by
            unfold dgStep
            rw [h, hm]
            dsimp only
            rw [if_pos hgt]
            exact mapGet_mapSet_self _ _ _
          rw [this]
          rcases e with ⟨ev, ets⟩
          simp only [bestAux]
          rw [if_pos hgt]
        · have : mapGet (dgStep m a) t = some e := by
            unfold dgStep
            rw [h, hm]
            dsimp only
            rw [if_neg hgt]
            exact hm
          rw [this]
          rcases e with ⟨ev, ets⟩
          simp only [bestAux]
          rw [if_neg hgt]
    · have hb : (a.target == t) = false := by simp [h]
      rw [if_neg (by simp [hb]), ih, mapGet_dgStep_ne _ _ _ h]

theorem mapGet_targetStates (L : List RecordedAction) (t : String) :
    mapGet (targetStates L) t = bestAux none (L.filter (fun a => a.target == t)) :=
  mapGet_foldlDg L [] t

/-! ### What the per-target reduction retains -/

theorem bestAux_spec (F : List RecordedAction) :
    ∀ (v₀ : Value) (ts₀ : Int) (v : Value) (ts : Int),
    bestAux (some (v₀, ts₀)) F = some (v, ts) →
    (∀ b ∈ F, b.timestamp ≤ ts) ∧ ts₀ ≤ ts ∧
      ((v = v₀ ∧ ts = ts₀) ∨
        (ts₀ < ts ∧ ∃ a, F.find? (fun b => b.timestamp == ts) = some a ∧
          a.value = v ∧ a.timestamp = ts)) := by
  induction F with
  | nil =>
    intro v₀ ts₀ v ts h
    simp only [bestAux, Option.some_inj, Prod.mk.injEq] at h
    obtain ⟨rfl, rfl⟩ := h
    exact ⟨by simp, le_refl _, Or.inl ⟨rfl, rfl⟩⟩
  | cons c F ih =>
    intro v₀ ts₀ v ts h
    simp only [bestAux] at h
    by_cases hgt : c.timestamp > ts₀
    · rw [if_pos hgt] at h
      obtain ⟨hall, hle, hdis⟩ := ih _ _ _ _ h
      refine ⟨?_, le_trans (le_of_lt hgt) hle, ?_⟩
      · intro b hb
        rcases List.mem_cons.mp hb with rfl | hb
        · exact hle
        · exact hall b hb
      · have hts : ts₀ < ts := lt_of_lt_of_le hgt hle
        rcases hdis with ⟨rfl, rfl⟩ | ⟨hlt, a, hfind, hv, hts'⟩
        · refine Or.inr ⟨hts, c, ?_, rfl, rfl⟩
          simp [List.find?_cons_of_pos]
        · refine Or.inr ⟨hts, a, ?_, hv, hts'⟩
          rw [List.find?_cons_of_neg, hfind]
          simp only [beq_iff_eq]
          omega
    · rw [if_neg hgt] at h
      obtain ⟨hall, hle, hdis⟩ := ih _ _ _ _ h
      refine ⟨?_, hle, ?_⟩
      · intro b hb
        rcases List.mem_cons.mp hb with rfl | hb
        · omega
        · exact hall b hb
      · rcases hdis with hl | ⟨hlt, a, hfind, hv, hts'⟩
        · exact Or.inl hl
        · refine Or.inr ⟨hlt, a, ?_, hv, hts'⟩
          rw [List.find?_cons_of_neg, hfind]
          simp only [beq_iff_eq]
          omega

theorem bestAux_none_spec (F : List RecordedAction) (v : Value) (ts : Int)
    (h : bestAux none F = some (v, ts)) :
    (∀ b ∈ F, b.timestamp ≤ ts) ∧
      ∃ a, F.find? (fun b => b.timestamp == ts) = some a ∧
        a.value = v ∧ a.timestamp = ts := by
  cases F with
  | nil => simp [bestAux] at h
  | cons c F =>
    simp only [bestAux] at h
    obtain ⟨hall, hle, hdis⟩ := bestAux_spec F _ _ _ _ h
    constructor
    · intro b hb
      rcases List.mem_cons.mp hb with rfl | hb
      · exact hle
      · exact hall b hb
    · rcases hdis with ⟨rfl, rfl⟩ | ⟨hlt, a, hfind, hv, hts⟩
      · exact ⟨c, by simp [List.find?_cons_of_pos], rfl, rfl⟩
      · refine ⟨a, ?_, hv, hts⟩
        rw [List.find?_cons_of_neg, hfind]
        simp only [beq_iff_eq]
        omega

theorem find?_filter_target (L : List RecordedAction) (t : String)
    (p : RecordedAction → Bool) :
    (L.filter (fun a => a.target == t)).find? p =
      L.find? (fun a => a.target == t && p a) := by
  induction L with
  | nil => rfl
  | cons a rest ih =>
    simp only [List.filter_cons]
    by_cases h : (a.target == t) = true
    · rw [if_pos h]
      by_cases hp : p a = true
      · rw [List.find?_cons_of_pos _ hp, List.find?_cons_of_pos]
        simp [h, hp]
      · rw [List.find?_cons_of_neg _ (by simp [hp]), ih, List.find?_cons_of_neg]
        simp [hp]
    · rw [if_neg (by simp_all), ih, List.find?_cons_of_neg]
      simp [h]

/-! ### Characterizing the classification loop of `deduceGoal` -/

theorem nodup_keys_foldlDg (L : List RecordedAction) :
    ∀ m : List (String × Value × Int),
    (m.map Prod.fst).Nodup → ((L.foldl dgStep m).map Prod.fst).Nodup := by
  induction L with
  | nil => exact fun _ h => h
  | cons a rest ih =>
    intro m hm
    refine ih _ ?_
    unfold dgStep
    split
    · exact nodup_mapKeys_mapSet _ _ _ hm
    · split
      · exact nodup_mapKeys_mapSet _ _ _ hm
      · exact hm

theorem nodup_keys_targetStates (L : List RecordedAction) :
    ((targetStates L).map Prod.fst).Nodup :=
  nodup_keys_foldlDg L [] (by simp)

theorem classify_other_ct (fs : FinalState) (e : String × Value × Int) (t : String)
    (h : e.1 ≠ t) : t ∈ (classify fs e).completedTasks ↔ t ∈ fs.completedTasks := by
  rw [classify_ct]
  split
  · simp [List.mem_append, Ne.symm h]
  · exact Iff.rfl

theorem classify_other_fv (fs : FinalState) (e : String × Value × Int) (t : String)
    (h : e.1 ≠ t) : mapGet (classify fs e).formValues t = mapGet fs.formValues t := by
  rcases e with ⟨k, v, ts⟩
  rw [classify_fv]
  split
  · rfl
  · cases v with
    | str s =>
      dsimp only
      split
      · exact mapGet_mapSet_ne _ _ _ _ h
      · rfl
    | bool b => rfl
    | undef => rfl

theorem classifyFold_other (E : List (String × Value × Int)) :
    ∀ (fs : FinalState) (t : String), t ∉ E.map Prod.fst →
    (t ∈ (E.foldl classify fs).completedTasks ↔ t ∈ fs.completedTasks) ∧
      mapGet (E.foldl classify fs).formValues t = mapGet fs.formValues t := by
  induction E with
  | nil => exact fun _ _ _ => ⟨Iff.rfl, rfl⟩
  | cons e rest ih =>
    intro fs t ht
    simp only [List.map_cons, List.mem_cons, not_or] at ht
    obtain ⟨hne, hrest⟩ := ht
    simp only [List.foldl_cons]
    obtain ⟨ih₁, ih₂⟩ := ih (classify fs e) t hrest
    exact ⟨ih₁.trans (classify_other_ct fs e t (fun hh => hne hh.symm)),
      ih₂.trans (classify_other_fv fs e t (fun hh => hne hh.symm))⟩

theorem classifyFold_char (E : List (String × Value × Int)) :
    ∀ (fs : FinalState) (t : String),
    (E.map Prod.fst).Nodup → t ∉ fs.completedTasks →
    mapGet fs.formValues t = none →
    (t ∈ (E.foldl classify fs).completedTasks ↔
      ∃ ts, mapGet E t = some (Value.bool true, ts) ∧ jsStartsWith t "task-" = true) ∧
    (∀ s, mapGet (E.foldl classify fs).formValues t = some s ↔
      ∃ ts, mapGet E t = some (Value.str s, ts) ∧ jsTrim s ≠ "") := by
  induction E with
  | nil =>
    intro fs t _ hct hfv
    constructor
    · simp [mapGet, hct]
    · intro s
      simp [mapGet, hfv]
  | cons e rest ih =>
    intro fs t hnd hct hfv
    obtain ⟨k, v, ts⟩ := e
    simp only [List.map_cons, List.nodup_cons] at hnd
    obtain ⟨hk, hnd⟩ := hnd
    simp only [List.foldl_cons]
    by_cases hkt : k = t
    · subst hkt
      obtain ⟨ho₁, ho₂⟩ := classifyFold_other rest (classify fs (k, v, ts)) k hk
      rw [ho₁, ho₂]
      have hget : mapGet ((k, v, ts) :: rest) k = some (v, ts) := by
        simp [mapGet]
      rw [hget] at *
      constructor
      · rw [classify_ct]
        by_cases hcond : (jsStartsWith k "task-" && (v == Value.bool true)) = true
        · simp only [if_pos hcond]
          simp only [Bool.and_eq_true, beq_iff_eq] at hcond
        
          constructor
          · intro _
            exact ⟨ts, by rw [hcond.2], hcond.1⟩
          · intro _
            simp
        · simp only [if_neg hcond]
          simp only [Bool.and_eq_true, beq_iff_eq] at hcond
          constructor
          · intro hmem
            exact absurd hmem hct
          · rintro ⟨ts', heq, hsw⟩
            rw [Option.some_inj, Prod.mk.injEq] at heq
            exact absurd ⟨hsw, heq.1⟩ hcond
      · intro s
        rw [classify_fv]
        by_cases hcond : (jsStartsWith k "task-" && (v == Value.bool true)) = true
        · simp only [if_pos hcond]
          simp only [Bool.and_eq_true, beq_iff_eq] at hcond
          rw [hfv]
          constructor
          · intro hh
            exact absurd hh (by simp)
          · rintro ⟨ts', heq, _⟩
            rw [hcond.2] at heq
            simp at heq
        · simp only [if_neg hcond]
          cases v with
          | str s₀ =>
            dsimp only
            by_cases htrim : (jsTrim s₀ != "") = true
            · rw [if_pos htrim, mapGet_mapSet_self]
              simp only [bne_iff_ne, ne_eq] at htrim
              constructor
              · rintro h'
                rw [Option.some_inj] at h'
                subst h'
                exact ⟨ts, rfl, htrim⟩
              · rintro ⟨ts', heq, _⟩
                rw [Option.some_inj, Prod.mk.injEq, Value.str.injEq] at heq
                rw [heq.1]
            · rw [if_neg htrim, hfv]
              simp only [bne_iff_ne, ne_eq, not_not] at htrim
              constructor
              · intro hh
                exact absurd hh (by simp)
              · rintro ⟨ts', heq, htr⟩
                rw [Option.some_inj, Prod.mk.injEq, Value.str.injEq] at heq
                rw [← heq.1] at htr
                exact absurd htrim htr
          | bool b =>
            rw [hfv]
            constructor
            · intro hh
              exact absurd hh (by simp)
            · rintro ⟨ts', heq, _⟩
              simp at heq
          | undef =>
            rw [hfv]
            constructor
            · intro hh
              exact absurd hh (by simp)
            · rintro ⟨ts', heq, _⟩
              simp at heq
    · have hget : mapGet ((k, v, ts) :: rest) t = mapGet rest t := by
        simp [mapGet, hkt]
      rw [hget]
      refine ih (classify fs (k, v, ts)) t hnd ?_ ?_
      · intro hmem
        exact hct ((classify_other_ct fs (k, v, ts) t hkt).mp hmem)
      · rw [classify_other_fv fs (k, v, ts) t hkt]
        exact hfv

theorem deduceGoal_ct_char (n : Int) (L : List RecordedAction) (t : String) :
    t ∈ (deduceGoal n L).completedTasks ↔
      ∃ ts, mapGet (targetStates L) t = some (Value.bool true, ts) ∧
        jsStartsWith t "task-" = true :=
  (classifyFold_char (targetStates L)
    { completedTasks := [], formValues := [], timestamp := n } t
    (nodup_keys_targetStates L) (by simp) rfl).1

theorem deduceGoal_fv_char (n : Int) (L : List RecordedAction) (t s : String) :
    mapGet (deduceGoal n L).formValues t = some s ↔
      ∃ ts, mapGet (targetStates L) t = some (Value.str s, ts) ∧ jsTrim s ≠ "" :=
  (classifyFold_char (targetStates L)
    { completedTasks := [], formValues := [], timestamp := n } t
    (nodup_keys_targetStates L) (by simp) rfl).2 s

/-! ### Structure of the `pruneNoise` output: unique targets, sorted -/

theorem pruneNoise_eq (rawLog keepList : List RecordedAction) :
    pruneNoise rawLog keepList =
      List.insertionSort tsLe
        (((rawLog.filter (fun a =>
            (keepList.foldl (fun s a => setAdd s (actionKey a)) []).contains
              (actionKey a))).foldl dedupStep []).map Prod.snd) := rfl

theorem traceBackward_eq (actions : List RecordedAction) (goal : FinalState) :
    traceBackward actions goal =
      List.insertionSort tsLe
        ((actions.foldl (keepStep goal (necessaryTargets goal)) []).map Prod.snd) := rfl

theorem dedupFold_WF (xs : List RecordedAction) :
    ∀ m : List (String × RecordedAction),
    (m.map Prod.fst).Nodup → (∀ e ∈ m, e.2.target = e.1) →
    ((xs.foldl dedupStep m).map Prod.fst).Nodup ∧
      ∀ e ∈ xs.foldl dedupStep m, e.2.target = e.1 := by
  induction xs with
  | nil => exact fun _ h₁ h₂ => ⟨h₁, h₂⟩
  | cons a rest ih =>
    intro m h₁ h₂
    simp only [List.foldl_cons]
    have step : dedupStep m a = m ∨ dedupStep m a = mapSet m a.target a := by
      unfold dedupStep
      split
      · exact Or.inr rfl
      · split
        · exact Or.inr rfl
        · exact Or.inl rfl
    rcases step with h | h
    · rw [h]
      exact ih m h₁ h₂
    · rw [h]
      refine ih _ (nodup_mapKeys_mapSet _ _ _ h₁) ?_
      intro e he
      rcases mem_of_mem_mapSet _ _ _ _ he with he' | rfl
      · exact h₂ e he'
      · rfl

theorem pairwise_targets_of_WF (m : List (String × RecordedAction))
    (h₁ : (m.map Prod.fst).Nodup) (h₂ : ∀ e ∈ m, e.2.target = e.1) :
    (m.map Prod.snd).Pairwise (fun a b => a.target ≠ b.target) := by
  rw [List.pairwise_map]
  rw [List.Nodup, List.pairwise_map] at h₁
  refine h₁.imp_of_mem ?_
  intro e₁ e₂ h₁' h₂' hne
  rw [h₂ e₁ h₁', h₂ e₂ h₂']
  exact hne

theorem pruneNoise_pairwise (rawLog keepList : List RecordedAction) :
    (pruneNoise rawLog keepList).Pairwise (fun a b => a.target ≠ b.target) := by
  rw [pruneNoise_eq]
  have hWF := dedupFold_WF
    (rawLog.filter fun a =>
      (keepList.foldl (fun s a => setAdd s (actionKey a)) []).contains (actionKey a))
    [] (by simp) (by simp)
  have hp := pairwise_targets_of_WF _ hWF.1 hWF.2
  exact ((List.perm_insertionSort tsLe _).pairwise_iff
    (fun hab => Ne.symm hab)).mpr hp

theorem processRecording_pairwise_target (n : Int) (L : List RecordedAction) :
    (processRecording n L).Pairwise (fun a b => a.target ≠ b.target) := by
  unfold processRecording
  split
  · exact List.Pairwise.nil
  · exact pruneNoise_pairwise _ _

theorem pruneNoise_sorted (rawLog keepList : List RecordedAction) :
    List.Sorted tsLe (pruneNoise rawLog keepList) := by
  rw [pruneNoise_eq]
  exact List.sorted_insertionSort tsLe _

theorem processRecording_sortedTs (n : Int) (L : List RecordedAction) :
    List.Sorted tsLe (processRecording n L) := by
  unfold processRecording
  split
  · exact List.sorted_nil
  · exact pruneNoise_sorted _ _

/-! ### The `actionKey` string determines the target

JavaScript builds the `pruneNoise` identity key by string interpolation.
Integer stringification puts a dash only in leading position, so two keys
can agree only if the target parts agree. -/

theorem digitChar_isDigit (n : Nat) (h : n < 10) : (Nat.digitChar n).isDigit = true := by
  interval_cases n <;> decide

theorem toDigitsCore_digits (fuel : Nat) :
    ∀ (n : Nat) (ds : List Char), (∀ c ∈ ds, c.isDigit = true) →
    ∀ c ∈ Nat.toDigitsCore 10 fuel n ds, c.isDigit = true := by
  induction fuel with
  | zero =>
    intro n ds hds
    rw [Nat.toDigitsCore]
    exact hds
  | succ fuel ih =>
    intro n ds hds
    rw [Nat.toDigitsCore]
    have hd : (Nat.digitChar (n % 10)).isDigit = true :=
      digitChar_isDigit _ (Nat.mod_lt _ (by omega))
    split
    · intro c hc
      rcases List.mem_cons.mp hc with rfl | hc
      · exact hd
      · exact hds c hc
    · refine ih _ _ ?_
      intro c hc
      rcases List.mem_cons.mp hc with rfl | hc
      · exact hd
      · exact hds c hc

theorem toDigitsCore_ne_nil (fuel : Nat) :
    ∀ (n : Nat) (ds : List Char), ds ≠ [] → Nat.toDigitsCore 10 fuel n ds ≠ [] := by
  induction fuel with
  | zero =>
    intro n ds h
    rw [Nat.toDigitsCore]
    exact h
  | succ fuel ih =>
    intro n ds h
    rw [Nat.toDigitsCore]
    split
    · simp
    · exact ih _ _ (by simp)

theorem natRepr_digits (n : Nat) : ∀ c ∈ (Nat.repr n).data, c.isDigit = true := by
  intro c hc
  have : (Nat.repr n).data = Nat.toDigits 10 n := rfl
  rw [this] at hc
  exact toDigitsCore_digits (n + 1) n [] (by simp) c hc

theorem natRepr_ne_nil (n : Nat) : (Nat.repr n).data ≠ [] := by
  have : (Nat.repr n).data = Nat.toDigits 10 n := rfl
  rw [this, Nat.toDigits, Nat.toDigitsCore]
  split
  · simp
  · exact toDigitsCore_ne_nil _ _ _ (by simp)

theorem intRepr_shape (i : Int) :
    (toString i).data ≠ [] ∧ ∀ c ∈ (toString i).data.tail, c.isDigit = true := by
  cases i with
  | ofNat m =>
    refine ⟨natRepr_ne_nil m, ?_⟩
    intro c hc
    exact natRepr_digits m c (List.mem_of_mem_tail hc)
  | negSucc m =>
    have hdata : (toString (Int.negSucc m)).data = '-' :: (Nat.repr (m + 1)).data := by
      show (Int.repr (Int.negSucc m)).data = _
      rw [Int.repr]
      rw [String.data_append]
      rfl
    rw [hdata]
    refine ⟨by simp, ?_⟩
    intro c hc
    exact natRepr_digits (m + 1) c hc

theorem sep_inj_digit (s₁ : List Char) :
    ∀ (s₂ d₁ d₂ : List Char), (∀ c ∈ s₁, c.isDigit = true) →
    (∀ c ∈ s₂, c.isDigit = true) →
    s₁ ++ '-' :: d₁ = s₂ ++ '-' :: d₂ → s₁ = s₂ ∧ d₁ = d₂ := by
  induction s₁ with
  | nil =>
    intro s₂ d₁ d₂ _ h₂ heq
    cases s₂ with
    | nil => simpa using heq
    | cons c s₂' =>
      exfalso
      simp only [List.nil_append, List.cons_append, List.cons.injEq] at heq
      have := h₂ c (by simp)
      rw [← heq.1] at this
      simp at this
  | cons c₁ s₁' ih =>
    intro s₂ d₁ d₂ h₁ h₂ heq
    cases s₂ with
    | nil =>
      exfalso
      simp only [List.nil_append, List.cons_append, List.cons.injEq] at heq
      have := h₁ c₁ (by simp)
      rw [heq.1] at this
      simp at this
    | cons c₂ s₂' =>
      simp only [List.cons_append, List.cons.injEq] at heq
      obtain ⟨rfl, heq⟩ := heq
      obtain ⟨hs, hd⟩ := ih s₂' d₁ d₂
        (fun c hc => h₁ c (List.mem_cons_of_mem _ hc))
        (fun c hc => h₂ c (List.mem_cons_of_mem _ hc)) heq
      exact ⟨by rw [hs], hd⟩

theorem sep_inj (r₁ r₂ d₁ d₂ : List Char)
    (hn₁ : r₁ ≠ []) (hn₂ : r₂ ≠ [])
    (h₁ : ∀ c ∈ r₁.tail, c.isDigit = true) (h₂ : ∀ c ∈ r₂.tail, c.isDigit = true)
    (heq : r₁ ++ '-' :: d₁ = r₂ ++ '-' :: d₂) : d₁ = d₂ := by
  cases r₁ with
  | nil => exact absurd rfl hn₁
  | cons c₁ s₁ =>
    cases r₂ with
    | nil => exact absurd rfl hn₂
    | cons c₂ s₂ =>
      simp only [List.cons_append, List.cons.injEq] at heq
      exact (sep_inj_digit s₁ s₂ d₁ d₂ h₁ h₂ heq.2).2

theorem actionKey_target (a b : RecordedAction) (h : actionKey a = actionKey b) :
    a.target = b.target := by
  unfold actionKey at h
  have hd : (toString a.timestamp ++ "-" ++ a.target).data =
      (toString b.timestamp ++ "-" ++ b.target).data := by rw [h]
  simp only [String.data_append] at hd
  rw [List.append_assoc, List.append_assoc] at hd
  have h1 := intRepr_shape a.timestamp
  have h2 := intRepr_shape b.timestamp
  have hres : a.target.data = b.target.data := by
    refine sep_inj _ _ _ _ h1.1 h2.1 h1.2 h2.2 ?_
    simpa [List.singleton_append] using hd
  cases ha : a.target with
  | mk l₁ =>
    cases hb : b.target with
    | mk l₂ =>
      rw [ha, hb] at hres
      exact congrArg String.mk (by simpa using hres)

/-! ### Distinct-target logs: what each stage does to an already-refined log -/

theorem eq_of_pairwise_target (R : List RecordedAction)
    (hd : R.Pairwise (fun a b => a.target ≠ b.target)) :
    ∀ a ∈ R, ∀ b ∈ R, a.target = b.target → a = b := by
  intro a ha b hb ht
  by_contra hne
  exact hd.forall (fun x y h => Ne.symm h) ha hb hne ht

theorem filter_target_eq_nil (R : List RecordedAction) (t : String)
    (h : ∀ b ∈ R, b.target ≠ t) : R.filter (fun b => b.target == t) = [] := by
  induction R with
  | nil => rfl
  | cons c rest ih =>
    rw [List.filter_cons, if_neg (by simp [h c (List.mem_cons_self c rest)]),
      ih (fun b hb => h b (List.mem_cons_of_mem _ hb))]

theorem filter_target_single (R : List RecordedAction)
    (hd : R.Pairwise (fun a b => a.target ≠ b.target)) :
    ∀ a ∈ R, R.filter (fun b => b.target == a.target) = [a] := by
  induction R with
  | nil =>
    intro a ha
    simp at ha
  | cons c rest ih =>
    intro a ha
    rcases List.pairwise_cons.mp hd with ⟨hc, hrest⟩
    rcases List.mem_cons.mp ha with rfl | ha
    · rw [List.filter_cons, if_pos (by simp),
        filter_target_eq_nil rest a.target (fun b hb => Ne.symm (hc b hb))]
    · rw [List.filter_cons, if_neg (by simp [hc a ha]), ih hrest a ha]

theorem mapGet_targetStates_of_mem (R : List RecordedAction)
    (hd : R.Pairwise (fun a b => a.target ≠ b.target))
    (a : RecordedAction) (ha : a ∈ R) :
    mapGet (targetStates R) a.target = some (a.value, a.timestamp) := by
  rw [mapGet_targetStates, filter_target_single R hd a ha]
  rfl

theorem contains_eq_true_iff (l : List String) (x : String) :
    l.contains x = true ↔ x ∈ l :=
  ⟨List.mem_of_elem_eq_true, List.elem_eq_true_of_mem⟩

theorem contains_eq_false_iff (l : List String) (x : String) :
    l.contains x = false ↔ x ∉ l := by
  rw [Bool.eq_false_iff, Ne, contains_eq_true_iff]

theorem mem_keys_iff_mapGet {α : Type} (m : List (String × α)) (t : String) :
    t ∈ m.map Prod.fst ↔ ∃ v, mapGet m t = some v := by
  rw [← Option.ne_none_iff_exists', Ne, mapGet_eq_none_iff]
  exact not_not.symm

theorem mem_necessaryTargets (g : FinalState) (t : String) :
    t ∈ necessaryTargets g ↔
      t ∈ g.completedTasks ∨ t ∈ g.formValues.map Prod.fst := by
  unfold necessaryTargets
  rw [mem_setAddFold, mem_setAddFold]
  simp

theorem dedupFold_fresh (R : List RecordedAction) :
    ∀ m : List (String × RecordedAction),
    (∀ a ∈ R, mapGet m a.target = none) →
    R.Pairwise (fun a b => a.target ≠ b.target) →
    R.foldl dedupStep m = m ++ R.map (fun a => (a.target, a)) := by
  induction R with
  | nil =>
    intro m _ _
    simp
  | cons a rest ih =>
    intro m hfresh hd
    rcases List.pairwise_cons.mp hd with ⟨hc, hrest⟩
    have hfa : mapGet m a.target = none := hfresh a (List.mem_cons_self a rest)
    have hstep : dedupStep m a = m ++ [(a.target, a)] := by
      unfold dedupStep
      rw [hfa]
      exact mapSet_absent m _ _ hfa
    rw [List.foldl_cons, hstep,
      ih (m ++ [(a.target, a)]) ?fresh hrest, List.append_assoc]
    rfl
    case fresh =>
      intro b hb
      rw [mapGet_append_left _ _ _ (hfresh b (List.mem_cons_of_mem _ hb))]
      simp [mapGet, hc b hb]

theorem keepFold_fresh (goal : FinalState) (N : List String) (R : List RecordedAction)
    (hdec : ∀ a ∈ R, (N.contains a.target && shouldKeep a goal) = selfConsistent a) :
    ∀ m : List (String × RecordedAction),
    (∀ a ∈ R, mapGet m a.target = none) →
    R.Pairwise (fun a b => a.target ≠ b.target) →
    R.foldl (keepStep goal N) m =
      m ++ (R.filter selfConsistent).map (fun a => (a.target, a)) := by
  induction R with
  | nil =>
    intro m _ _
    simp
  | cons a rest ih =>
    intro m hfresh hd
    rcases List.pairwise_cons.mp hd with ⟨hc, hrest⟩
    have hfa : mapGet m a.target = none := hfresh a (List.mem_cons_self a rest)
    have hstep : keepStep goal N m a =
        if (N.contains a.target && shouldKeep a goal) = true then
          m ++ [(a.target, a)]
        else m := by
      unfold keepStep
      by_cases hN : N.contains a.target = true
      · rw [if_pos hN, hfa]
        dsimp only
        by_cases hsk : shouldKeep a goal = true
        · rw [if_pos hsk, mapSet_absent m _ _ hfa,
            if_pos (by rw [hN, hsk]; rfl)]
        · rw [if_neg hsk,
            if_neg (by intro h; rw [Bool.and_eq_true] at h; exact hsk h.2)]
      · rw [if_neg hN,
          if_neg (by intro h; rw [Bool.and_eq_true] at h; exact hN h.1)]
    rw [List.foldl_cons, hstep, hdec a (List.mem_cons_self a rest)]
    have hdec' : ∀ b ∈ rest, (N.contains b.target && shouldKeep b goal) = selfConsistent b :=
      fun b hb => hdec b (List.mem_cons_of_mem _ hb)
    by_cases hsc : selfConsistent a = true
    · rw [if_pos hsc,
        ih hdec' (m ++ [(a.target, a)]) ?fresh hrest,
        List.filter_cons, if_pos hsc, List.append_assoc]
      rfl
      case fresh =>
        intro b hb
        rw [mapGet_append_left _ _ _ (hfresh b (List.mem_cons_of_mem _ hb))]
        simp [mapGet, hc b hb]
    · rw [if_neg hsc,
        ih hdec' m (fun b hb => hfresh b (List.mem_cons_of_mem _ hb)) hrest,
        List.filter_cons, if_neg hsc]

theorem fv_none_of_not_str (n : Int) (R : List RecordedAction) (a : RecordedAction)
    (h : ∀ s, ¬(a.value = Value.str s ∧ jsTrim s ≠ ""))
    (hget : mapGet (targetStates R) a.target = some (a.value, a.timestamp)) :
    mapGet (deduceGoal n R).formValues a.target = none := by
  cases hm : mapGet (deduceGoal n R).formValues a.target with
  | none => rfl
  | some s =>
    rcases (deduceGoal_fv_char n R a.target s).mp hm with ⟨ts, hts, htr⟩
    rw [hget, Option.some_inj, Prod.mk.injEq] at hts
    exact absurd ⟨hts.1, htr⟩ (h s)

theorem ct_not_mem_of (n : Int) (R : List RecordedAction) (a : RecordedAction)
    (h : ¬(a.value = Value.bool true ∧ jsStartsWith a.target "task-" = true))
    (hget : mapGet (targetStates R) a.target = some (a.value, a.timestamp)) :
    a.target ∉ (deduceGoal n R).completedTasks := by
  intro hmem
  rcases (deduceGoal_ct_char n R a.target).mp hmem with ⟨ts, hts, hsw⟩
  rw [hget, Option.some_inj, Prod.mk.injEq] at hts
  exact h ⟨hts.1, hsw⟩

theorem necessary_contains_false (g : FinalState) (t : String)
    (h₁ : t ∉ g.completedTasks) (h₂ : mapGet g.formValues t = none) :
    (necessaryTargets g).contains t = false := by
  rw [contains_eq_false_iff]
  intro hmem
  rcases (mem_necessaryTargets g t).mp hmem with h | h
  · exact h₁ h
  · rcases (mem_keys_iff_mapGet _ _).mp h with ⟨v, hv⟩
    rw [h₂] at hv
    cases hv

theorem decision_eq (n : Int) (R : List RecordedAction)
    (hd : R.Pairwise (fun a b => a.target ≠ b.target)) :
    ∀ a ∈ R,
      ((necessaryTargets (deduceGoal n R)).contains a.target &&
        shouldKeep a (deduceGoal n R)) = selfConsistent a := by
  intro a ha
  have hget := mapGet_targetStates_of_mem R hd a ha
  cases hv : a.value with
  | bool b =>
    cases b with
    | true =>
      by_cases hsw : jsStartsWith a.target "task-" = true
      · have hmem : a.target ∈ (deduceGoal n R).completedTasks := by
          rw [deduceGoal_ct_char]
          exact ⟨a.timestamp, by rw [hget, hv], hsw⟩
        have hfvnone := fv_none_of_not_str n R a
          (by rintro s ⟨hs, _⟩; rw [hv] at hs; cases hs) hget
        have hN : (necessaryTargets (deduceGoal n R)).contains a.target = true :=
          (contains_eq_true_iff _ _).mpr ((mem_necessaryTargets _ _).mpr (Or.inl hmem))
        have hctcont : (deduceGoal n R).completedTasks.contains a.target = true :=
          (contains_eq_true_iff _ _).mpr hmem
        rw [hN, Bool.true_and]
        simp only [shouldKeep, selfConsistent, hv, hctcont, hfvnone, hsw]
        simp [jsEq]
      · have hswf : jsStartsWith a.target "task-" = false := Bool.eq_false_iff.mpr hsw
        have hctno := ct_not_mem_of n R a (fun hh => hsw hh.2) hget
        have hfvnone := fv_none_of_not_str n R a
          (by rintro s ⟨hs, _⟩; rw [hv] at hs; cases hs) hget
        have hN := necessary_contains_false (deduceGoal n R) a.target hctno hfvnone
        rw [hN, Bool.false_and]
        simp only [selfConsistent, hv, hswf]
        simp
    | false =>
      have hctno := ct_not_mem_of n R a
        (by rintro ⟨hh, _⟩; rw [hv] at hh; cases hh) hget
      have hfvnone := fv_none_of_not_str n R a
        (by rintro s ⟨hs, _⟩; rw [hv] at hs; cases hs) hget
      have hN := necessary_contains_false (deduceGoal n R) a.target hctno hfvnone
      rw [hN, Bool.false_and]
      simp only [selfConsistent, hv]
      simp
  | undef =>
    have hctno := ct_not_mem_of n R a
      (by rintro ⟨hh, _⟩; rw [hv] at hh; cases hh) hget
    have hfvnone := fv_none_of_not_str n R a
      (by rintro s ⟨hs, _⟩; rw [hv] at hs; cases hs) hget
    have hN := necessary_contains_false (deduceGoal n R) a.target hctno hfvnone
    rw [hN, Bool.false_and]
    simp only [selfConsistent, hv]
    simp
  | str s =>
    have hctno := ct_not_mem_of n R a
      (by rintro ⟨hh, _⟩; rw [hv] at hh; cases hh) hget
    by_cases htr : (jsTrim s != "") = true
    · have htr' : jsTrim s ≠ "" := bne_iff_ne.mp htr
      have hfvsome : mapGet (deduceGoal n R).formValues a.target = some s := by
        rw [deduceGoal_fv_char]
        exact ⟨a.timestamp, by rw [hget, hv], htr'⟩
      have hN : (necessaryTargets (deduceGoal n R)).contains a.target = true := by
        refine (contains_eq_true_iff _ _).mpr ((mem_necessaryTargets _ _).mpr (Or.inr ?_))
        exact (mem_keys_iff_mapGet _ _).mpr ⟨s, hfvsome⟩
      have hctcont : (deduceGoal n R).completedTasks.contains a.target = false :=
        (contains_eq_false_iff _ _).mpr hctno
      rw [hN, Bool.true_and]
      simp only [shouldKeep, selfConsistent, hv, hctcont, hfvsome, htr]
      simp [jsEq]
    · have htr' : (jsTrim s != "") = false := Bool.eq_false_iff.mpr htr
      have hfvnone := fv_none_of_not_str n R a
        (by
          rintro s' ⟨hs, htrne⟩
          rw [hv, Value.str.injEq] at hs
          rw [← hs] at htrne
          exact htrne (by simpa using htr)) hget
      have hN := necessary_contains_false (deduceGoal n R) a.target hctno hfvnone
      rw [hN, Bool.false_and]
      simp only [selfConsistent, hv, htr']
      simp

theorem traceBackward_deduce_distinct (n : Int) (R : List RecordedAction)
    (hd : R.Pairwise (fun a b => a.target ≠ b.target))
    (hs : List.Sorted tsLe R) :
    traceBackward R (deduceGoal n R) = R.filter selfConsistent := by
  rw [traceBackward_eq,
    keepFold_fresh (deduceGoal n R) (necessaryTargets (deduceGoal n R)) R
      (decision_eq n R hd) [] (fun a _ => rfl) hd]
  rw [List.nil_append, List.map_map]
  have hmapid : (Prod.snd ∘ fun a : RecordedAction => (a.target, a)) = id := rfl
  rw [hmapid, List.map_id]
  exact List.Sorted.insertionSort_eq (List.Pairwise.filter _ hs)

theorem pruneNoise_distinct (R : List RecordedAction)
    (hd : R.Pairwise (fun a b => a.target ≠ b.target))
    (hs : List.Sorted tsLe R) :
    pruneNoise R (R.filter selfConsistent) = R.filter selfConsistent := by
  have hdf : (R.filter selfConsistent).Pairwise (fun a b => a.target ≠ b.target) :=
    List.Pairwise.filter _ hd
  have hsf : List.Sorted tsLe (R.filter selfConsistent) :=
    List.Pairwise.filter _ hs
  rw [pruneNoise_eq]
  have hkmem : ∀ k, (((R.filter selfConsistent).foldl
      (fun s a => setAdd s (actionKey a)) []).contains k = true ↔
      k ∈ (R.filter selfConsistent).map actionKey) := by
    intro k
    rw [contains_eq_true_iff, ← List.foldl_map, mem_setAddFold]
    simp
  have hfilter : R.filter (fun a => ((R.filter selfConsistent).foldl
      (fun s a => setAdd s (actionKey a)) []).contains (actionKey a)) =
      R.filter selfConsistent := by
    apply List.filter_congr
    intro a haR
    by_cases hsc : selfConsistent a = true
    · rw [hsc]
      exact (hkmem (actionKey a)).mpr
        (List.mem_map_of_mem actionKey (List.mem_filter.mpr ⟨haR, hsc⟩))
    · rw [Bool.eq_false_iff.mpr hsc, Bool.eq_false_iff, Ne, hkmem]
      intro hmem
      rcases List.mem_map.mp hmem with ⟨b, hbf, hkey⟩
      have hbR : b ∈ R := List.mem_of_mem_filter hbf
      have hbt : b.target = a.target := actionKey_target b a hkey
      have hba : b = a := eq_of_pairwise_target R hd b hbR a haR hbt
      rw [hba] at hbf
      exact hsc (List.of_mem_filter hbf)
  rw [hfilter,
    dedupFold_fresh (R.filter selfConsistent) [] (fun a _ => rfl) hdf,
    List.nil_append, List.map_map]
  have hmapid : (Prod.snd ∘ fun a : RecordedAction => (a.target, a)) = id := rfl
  rw [hmapid, List.map_id]
  exact List.Sorted.insertionSort_eq hsf

theorem processRecording_distinct_sorted (n : Int) (R : List RecordedAction)
    (hd : R.Pairwise (fun a b => a.target ≠ b.target))
    (hs : List.Sorted tsLe R) :
    processRecording n R = R.filter selfConsistent := by
  unfold processRecording
  split
  · next h =>
    rw [List.length_eq_zero.mp h]
    rfl
  · show pruneNoise R (traceBackward R (deduceGoal n R)) = R.filter selfConsistent
    rw [traceBackward_deduce_distinct n R hd hs]
    exact pruneNoise_distinct R hd hs

/-! ### The claims -/

/-- Claim C1, counterexample: on an exact `recordedAt` tie the record
encountered EARLIER in the input wins (the strict `>` guard never replaces
an entry with an equally-timestamped later one), contradicting the claim
that the later record wins: with two records for target `a` both at
timestamp 5, the retained value is the first one (`x`), not the later
(`y`). -/
theorem claim1_counterexample :
    mapGet (targetStates
      [⟨"input", "a", Value.str "x", 5⟩, ⟨"input", "a", Value.str "y", 5⟩]) "a" =
      some (Value.str "x", 5) ∧ Value.str "x" ≠ Value.str "y" := by
  constructor
  · decide
  · decide

/-- Claim C1, amended: for every input log and target, the record retained
by Goal Deduction's per-target reduction is one with the greatest
`recordedAt`; when several records for the target share that greatest
`recordedAt`, the one encountered FIRST in the input sequence wins. -/
theorem claim1_retained_record (L : List RecordedAction) (t : String)
    (v : Value) (ts : Int)
    (h : mapGet (targetStates L) t = some (v, ts)) :
    (∀ b ∈ L, b.target = t → b.timestamp ≤ ts) ∧
      ∃ a, L.find? (fun b => b.target == t && b.timestamp == ts) = some a ∧
        a.value = v ∧ a.timestamp = ts := by
  rw [mapGet_targetStates] at h
  obtain ⟨hall, a, hfind, hv, hts⟩ := bestAux_none_spec _ _ _ h
  constructor
  · intro b hb ht
    exact hall b (List.mem_filter.mpr ⟨hb, by simp [ht]⟩)
  · refine ⟨a, ?_, hv, hts⟩
    rw [← find?_filter_target]
    exact hfind

/-- Claim C1, witness: the amended theorem applied to the concrete
two-record tie log. -/
theorem claim1_witness :
    mapGet (targetStates
      [⟨"input", "a", Value.str "x", 5⟩, ⟨"input", "a", Value.str "y", 5⟩]) "a" =
      some (Value.str "x", 5) ∧
    ((∀ b ∈ [(⟨"input", "a", Value.str "x", 5⟩ : RecordedAction),
        ⟨"input", "a", Value.str "y", 5⟩], b.target = "a" → b.timestamp ≤ 5) ∧
      ∃ a, ([(⟨"input", "a", Value.str "x", 5⟩ : RecordedAction),
          ⟨"input", "a", Value.str "y", 5⟩].find?
            (fun b => b.target == "a" && b.timestamp == 5)) = some a ∧
        a.value = Value.str "x" ∧ a.timestamp = 5) :=
  ⟨by decide, claim1_retained_record _ "a" (Value.str "x") 5 (by decide)⟩

/-- Claim C2, counterexample: the stored form value is the ORIGINAL
untrimmed string, not the trimmed one the claim asserts — `" Bob "` trims
to the non-empty `"Bob"`, and the mapping stores `" Bob "`, which differs
from the trimmed value. -/
theorem claim2_counterexample :
    mapGet (deduceGoal 0
      [⟨"input", "name", Value.str " Bob ", 1⟩]).formValues "name" =
      some " Bob " ∧ jsTrim " Bob " = "Bob" ∧ (" Bob " : String) ≠ "Bob" := by
  refine ⟨by decide, by decide, by decide⟩

/-- Claim C2, amended: when a target's final value is a string that is
non-empty after trimming, the form-values mapping maps that target to the
ORIGINAL untrimmed string (trimming is applied only as the non-emptiness
test, never to the stored value). -/
theorem claim2_untrimmed_value (n : Int) (L : List RecordedAction)
    (t s : String) (ts : Int)
    (h₁ : mapGet (targetStates L) t = some (Value.str s, ts))
    (h₂ : jsTrim s ≠ "") :
    mapGet (deduceGoal n L).formValues t = some s :=
  (deduceGoal_fv_char n L t s).mpr ⟨ts, h₁, h₂⟩

/-- Claim C2, witness: the amended theorem applied to the single-record
log carrying `" Bob "`. -/
theorem claim2_witness :
    mapGet (targetStates [⟨"input", "name", Value.str " Bob ", 1⟩]) "name" =
      some (Value.str " Bob ", 1) ∧
    jsTrim " Bob " ≠ "" ∧
    mapGet (deduceGoal 0
      [⟨"input", "name", Value.str " Bob ", 1⟩]).formValues "name" = some " Bob " :=
  ⟨by decide, by decide,
    claim2_untrimmed_value 0 _ "name" " Bob " 1 (by decide) (by decide)⟩

/-- Claim C3, counterexample: a malformed record CAN contribute to the
Terminal State, because classification never consults the record's kind: a
pointer-activation (`click`) carrying boolean `true` on a `task-`-prefixed
target joins completed-tasks, and a state-toggle carrying a non-empty
string joins form-values. -/
theorem claim3_counterexample :
    (deduceGoal 0 [⟨"click", "task-9", Value.bool true, 0⟩]).completedTasks =
      ["task-9"] ∧
    mapGet (deduceGoal 0
      [⟨"toggle", "f", Value.str "hello", 0⟩]).formValues "f" = some "hello" := by
  refine ⟨by decide, by decide⟩

/-- Claim C3, amended: classification of a record into the Terminal State
depends only on its target and its final retained value, never on its
kind, and the pipeline (all functions total) never raises: a target joins
completed-tasks exactly when its retained value is boolean `true` and the
target is `task-`-prefixed, and maps to `s` in form-values exactly when
its retained value is the string `s` and `s` is non-empty after trimming;
every other retained value (boolean `false`, absent, whitespace-only
string) contributes nothing — so a malformed record contributes nothing
unless its value alone passes one of these two tests. -/
theorem claim3_classification_ignores_kind (n : Int) (L : List RecordedAction)
    (t : String) :
    (t ∈ (deduceGoal n L).completedTasks ↔
      ∃ ts, mapGet (targetStates L) t = some (Value.bool true, ts) ∧
        jsStartsWith t "task-" = true) ∧
    (∀ s, mapGet (deduceGoal n L).formValues t = some s ↔
      ∃ ts, mapGet (targetStates L) t = some (Value.str s, ts) ∧ jsTrim s ≠ "") :=
  ⟨deduceGoal_ct_char n L t, fun s => deduceGoal_fv_char n L t s⟩

/-- Claim C4, counterexample: re-refinement is NOT a fixed point on all
logs. For the log `[toggle(task-2,false,5), click(task-2,true,10)]` the
first refinement keeps the false-valued toggle (the goal-match for toggles
never looks at the value), and the second refinement drops it (its own
goal is empty), so `refine (refine L) ≠ refine L`. -/
theorem claim4_counterexample :
    processRecording 0
        [⟨"toggle", "task-2", Value.bool false, 5⟩,
          ⟨"click", "task-2", Value.bool true, 10⟩] =
      [⟨"toggle", "task-2", Value.bool false, 5⟩] ∧
    processRecording 0 (processRecording 0
        [⟨"toggle", "task-2", Value.bool false, 5⟩,
          ⟨"click", "task-2", Value.bool true, 10⟩]) = [] ∧
    processRecording 0 (processRecording 0
        [⟨"toggle", "task-2", Value.bool false, 5⟩,
          ⟨"click", "task-2", Value.bool true, 10⟩]) ≠
      processRecording 0
        [⟨"toggle", "task-2", Value.bool false, 5⟩,
          ⟨"click", "task-2", Value.bool true, 10⟩] := by
  refine ⟨by decide, by decide, by decide⟩

/-- Claim C4, amended: re-refinement reaches a fixed point after one
further pass: for every input log `L`,
`processRecording (processRecording (processRecording L))` yields exactly
the same sequence of records as
`processRecording (processRecording L)` — equivalently, every
twice-refined script is a fixed point of the pipeline. (The single
re-refinement of the original claim fails only on refined scripts that
contain a record not matching the goal recomputed from the script itself,
which malformed records can produce, as the counterexample shows.) -/
theorem claim4_eventually_fixed (n : Int) (L : List RecordedAction) :
    processRecording n (processRecording n (processRecording n L)) =
      processRecording n (processRecording n L) := by
  have hd₁ := processRecording_pairwise_target n L
  have hs₁ := processRecording_sortedTs n L
  rw [processRecording_distinct_sorted n (processRecording n L) hd₁ hs₁]
  rw [processRecording_distinct_sorted n
    ((processRecording n L).filter selfConsistent)
    (List.Pairwise.filter _ hd₁) (List.Pairwise.filter _ hs₁)]
  rw [List.filter_filter]
  exact List.filter_congr (fun a _ => Bool.and_self _)

/-- Claim C5: in Backward Tracing a record that fails the goal-match test
is skipped without altering the current best candidate for its target
(`keepStep` returns the map unchanged whenever `shouldKeep` is false), and
refining the scenario-C log
`[input(name,Bob,1), input(name,"Bob and Alice",2), input(name,Bob,3)]`
yields exactly `[input(name,Bob,3)]`. -/
theorem claim5_nonmatching_skipped :
    (∀ (g : FinalState) (N : List String) (m : List (String × RecordedAction))
      (a : RecordedAction), shouldKeep a g = false → keepStep g N m a = m) ∧
    processRecording 0
        [⟨"input", "name", Value.str "Bob", 1⟩,
          ⟨"input", "name", Value.str "Bob and Alice", 2⟩,
          ⟨"input", "name", Value.str "Bob", 3⟩] =
      [⟨"input", "name", Value.str "Bob", 3⟩] := by
  constructor
  · intro g N m a h
    unfold keepStep
    split
    · split
      · simp [h]
      · split
        · simp [h]
        · rfl
    · rfl
  · decide

/-- Claim C5, witness: the skip property applied to a concrete
non-matching input record over a concrete goal state. -/
theorem claim5_witness :
    shouldKeep ⟨"input", "name", Value.str "Nope", 2⟩
        { completedTasks := [], formValues := [("name", "Bob")], timestamp := 0 } =
      false ∧
    keepStep { completedTasks := [], formValues := [("name", "Bob")], timestamp := 0 }
        ["name"] [] ⟨"input", "name", Value.str "Nope", 2⟩ = [] :=
  ⟨by decide, claim5_nonmatching_skipped.1 _ _ _ _ (by decide)⟩

/-- Claim C6: target uniqueness — no two records in the Refined Script
share the same target, for every input log and wall-clock reading. -/
theorem claim6_target_unique (n : Int) (L : List RecordedAction) :
    (processRecording n L).Pairwise (fun a b => a.target ≠ b.target) :=
  processRecording_pairwise_target n L

/-- Claim C7: chronological ordering — the Refined Script is sorted
ascending (non-decreasing) by `recordedAt`, for every input log. -/
theorem claim7_chronological (n : Int) (L : List RecordedAction) :
    List.Sorted tsLe (processRecording n L) :=
  processRecording_sortedTs n L

/-- Claim C8: the orchestrator is pure and deterministic — its output does
not depend on the wall-clock reading stored into the Terminal State's
timestamp field, so two invocations on the same log (at any two clock
instants) return the same Refined Script. -/
theorem claim8_pure_wallclock_independent (n₁ n₂ : Int) (L : List RecordedAction) :
    processRecording n₁ L = processRecording n₂ L := by
  by_cases hL : L.length = 0
  · unfold processRecording
    rw [if_pos hL, if_pos hL]
  · unfold processRecording
    rw [if_neg hL, if_neg hL]
    show pruneNoise L (traceBackward L (deduceGoal n₁ L)) =
      pruneNoise L (traceBackward L (deduceGoal n₂ L))
    rw [traceBackward_congr L (deduceGoal n₁ L) (deduceGoal n₂ L)
      (deduceGoal_fields n₁ n₂ L).1 (deduceGoal_fields n₁ n₂ L).2]

/-- Claim C9, counterexample: the Terminal State's timestamp field is the
wall-clock reading at invocation (`Date.now()`), so two invocations of
`deduceGoal` on the same (here empty) action sequence at different clock
instants return structures differing in the timestamp field —
contradicting the claim that every field, timestamp included, is equal. -/
theorem claim9_counterexample :
    (deduceGoal 0 []).timestamp = 0 ∧ (deduceGoal 1 []).timestamp = 1 ∧
      deduceGoal 0 [] ≠ deduceGoal 1 [] := by
  refine ⟨rfl, rfl, by decide⟩

/-- Claim C9, amended: Goal Deduction is deterministic and side-effect
free in its completed-tasks and form-values fields — they depend only on
the action sequence, not on the wall-clock reading; only the informational
timestamp field tracks the clock. -/
theorem claim9_deterministic_fields (n₁ n₂ : Int) (L : List RecordedAction) :
    (deduceGoal n₁ L).completedTasks = (deduceGoal n₂ L).completedTasks ∧
    (deduceGoal n₁ L).formValues = (deduceGoal n₂ L).formValues :=
  deduceGoal_fields n₁ n₂ L

/-- Claim C10: the goal-match test for a state-toggle record checks only
membership of its target in completed-tasks and never inspects the
record's own value; consequently the log with a `false`-valued toggle at
t=5 followed by a `true`-carrying non-toggle (click) at t=10 on target
`task-1` refines to a script containing a state-toggle whose value is
`false`. -/
theorem claim10_toggle_value_ignored :
    (∀ (a : RecordedAction) (g : FinalState), a.type = "toggle" →
      shouldKeep a g = g.completedTasks.contains a.target) ∧
    processRecording 0
        [⟨"toggle", "task-1", Value.bool false, 5⟩,
          ⟨"click", "task-1", Value.bool true, 10⟩] =
      [⟨"toggle", "task-1", Value.bool false, 5⟩] := by
  constructor
  · intro a g h
    unfold shouldKeep
    rw [h]
    have h1 : (("toggle" : String) == "toggle") = true := by decide
    have h2 : (("toggle" : String) == "input") = false := by decide
    rw [h1, h2]
    simp
  · decide

/-- Claim C10, witness: the value-blindness of the toggle match applied to
a concrete `false`-valued toggle whose target is in completed-tasks. -/
theorem claim10_witness :
    (⟨"toggle", "task-9", Value.bool false, 1⟩ : RecordedAction).type = "toggle" ∧
    shouldKeep ⟨"toggle", "task-9", Value.bool false, 1⟩
        { completedTasks := ["task-9"], formValues := [], timestamp := 0 } =
      ({ completedTasks := ["task-9"], formValues := [], timestamp := 0 } :
        FinalState).completedTasks.contains
        (⟨"toggle", "task-9", Value.bool false, 1⟩ : RecordedAction).target :=
  ⟨rfl, claim10_toggle_value_ignored.1 _ _ rfl⟩
